import Mathlib

/-!
Shallow embedding of the quantization codec in
`src/examples/StructureCompression.ipynb` (Bio-Datasets/bio-datasets).

Modelling conventions:
* Python floats are modelled as exact rationals (`ℚ`); numpy `(n, 3)` arrays
  are lists of triples, with the length-3 broadcast of the idealized-geometry
  constants made explicit componentwise.
* `np.round` rounds halfway cases to the nearest even integer (IEEE rint);
  `npRound` below implements exactly that on `ℚ`.
* The `.astype(np.int32)` cast is modelled as the exact integer value of the
  rounded float (fixed-width overflow is not modelled).
* Python `2 ** (bits - 1)` is integer division-free: for `bits = 0` it yields
  the float `0.5`, so `max_int_val` / `min_int_val` are `ℚ`-valued, computed
  with an integer exponent (`zpow`), exactly as Python evaluates them.
* The compressor's config is a Python dict; a missing key raises `KeyError`
  at lookup time, which is modelled by `Option`-valued `compress`/`decompress`
  (`none` = the dict lookup fails).  The dict itself is a record of three
  optional entries.
-/

/-- The keyword arguments threaded through `discretize_to_bits` /
`decode_from_bits` (`bits`, `max_val`, `min_val=0`, `signed=False`),
in the source passed as a plain dict such as `twelve_byte_angle_config`. -/
structure QuantizationSpec where
  bits : ℕ
  max_val : ℚ
  min_val : ℚ := 0
  signed : Bool := false
deriving DecidableEq

/-- `max_int_val` as computed in both source functions:
signed range top `2 ** (bits - 1) - 1`, unsigned range top `2 ** bits - 1`.
`ℚ`-valued with an integer exponent because Python's `2 ** (bits - 1)`
is the rational `1/2` when `bits = 0`. -/
def max_int_val (q : QuantizationSpec) : ℚ :=
  if q.signed then 2 ^ ((q.bits : ℤ) - 1) - 1 else 2 ^ (q.bits : ℤ) - 1

/-- `min_int_val` as computed in both source functions:
`-(2 ** (bits - 1))` when signed, `0` when unsigned. -/
def min_int_val (q : QuantizationSpec) : ℚ :=
  if q.signed then -(2 ^ ((q.bits : ℤ) - 1)) else 0

/-- `np.round`: round to the nearest integer, halfway cases to the even
neighbour.  At a tie `x = k + 1/2` the value `2 * round (x / 2)` is the even
element of `{k, k + 1}`; away from ties it is plain round-to-nearest. -/
def npRound (x : ℚ) : ℤ :=
  if x - ⌊x⌋ = 1 / 2 then 2 * round (x / 2) else round x

/-- The `normalized` intermediate of `discretize_to_bits`:
`(arr - min_val) / (max_val - min_val)`. -/
def normalized (q : QuantizationSpec) (v : ℚ) : ℚ :=
  (v - q.min_val) / (q.max_val - q.min_val)

/-- The `scaled` intermediate of `discretize_to_bits`:
`normalized * (max_int_val - min_int_val) + min_int_val`. -/
def scaled (q : QuantizationSpec) (v : ℚ) : ℚ :=
  normalized q v * (max_int_val q - min_int_val q) + min_int_val q

/-- `discretize_to_bits` (elementwise): affine-scale into the integer code
range and round with `np.round`, then cast to integer. -/
def discretize_to_bits (q : QuantizationSpec) (v : ℚ) : ℤ :=
  npRound (scaled q v)

/-- `decode_from_bits` (elementwise): map the integer code back through the
inverse affine scaling, with no rounding. -/
def decode_from_bits (q : QuantizationSpec) (n : ℤ) : ℚ :=
  ((n : ℚ) - min_int_val q) / (max_int_val q - min_int_val q) * (q.max_val - q.min_val) + q.min_val

/-- Half of one quantization step, `(max_val - min_val) / (2 * (2^bits - 1))`:
the round-trip error bound of the spec. -/
def halfStep (q : QuantizationSpec) : ℚ :=
  (q.max_val - q.min_val) / (2 * (2 ^ q.bits - 1))

/-- Componentwise map over an `(·, 3)`-row (one residue's three values). -/
def tmap3 {α β : Type} (f : α → β) (t : α × α × α) : β × β × β :=
  (f t.1, f t.2.1, f t.2.2)

/-- Componentwise subtraction of a length-3 broadcast row. -/
def tsub (a b : ℚ × ℚ × ℚ) : ℚ × ℚ × ℚ :=
  (a.1 - b.1, a.2.1 - b.2.1, a.2.2 - b.2.2)

/-- Componentwise addition of a length-3 broadcast row. -/
def tadd (a b : ℚ × ℚ × ℚ) : ℚ × ℚ × ℚ :=
  (a.1 + b.1, a.2.1 + b.2.1, a.2.2 + b.2.2)

/-- `BACKBONE_BOND_LENGTHS = np.array([1.33, 1.46, 1.52])`. -/
def BACKBONE_BOND_LENGTHS : ℚ × ℚ × ℚ :=
  (133 / 100, 146 / 100, 152 / 100)

/-- `BACKBONE_ANGLES = np.array([1.095, 0.98, 1.20])`. -/
def BACKBONE_ANGLES : ℚ × ℚ × ℚ :=
  (1095 / 1000, 98 / 100, 120 / 100)

/-- The `internal_coords` tuple `(bond_lengths, bond_angles, dihedrals)`,
each an `(n, 3)` array modelled as a list of rows. -/
structure InternalCoordinateSet where
  bond_lengths : List (ℚ × ℚ × ℚ)
  bond_angles : List (ℚ × ℚ × ℚ)
  dihedrals : List (ℚ × ℚ × ℚ)
deriving DecidableEq

/-- The compressor's config dict: the three entries `"lengths"`, `"angles"`,
`"dihedrals"`, each possibly absent (a plain Python dict carries no guarantee
that a key is present). -/
structure CompressorConfig where
  lengths : Option QuantizationSpec := none
  angles : Option QuantizationSpec := none
  dihedrals : Option QuantizationSpec := none
deriving DecidableEq

/-- `NaiveCompressor`: holds the config dict stored by `__init__`. -/
structure NaiveCompressor where
  config : CompressorConfig
deriving DecidableEq

/-- `NaiveCompressor.__init__` (via `Compressor.__init__`): store the config;
no validation of any kind is performed. -/
def NaiveCompressor.init (config : CompressorConfig) : NaiveCompressor :=
  ⟨config⟩

/-- `NaiveCompressor.compress`: look up the three specs in the config dict
(`KeyError`, i.e. `none`, if any is absent), then quantize bond lengths and
bond angles as deviations from the idealized constants and dihedrals
directly.  Each array is processed independently; no shape check. -/
def NaiveCompressor.compress (c : NaiveCompressor) (internal_coords : InternalCoordinateSet) :
    Option (List (ℤ × ℤ × ℤ) × List (ℤ × ℤ × ℤ) × List (ℤ × ℤ × ℤ)) :=
  match c.config.lengths, c.config.angles, c.config.dihedrals with
  | some length_config, some angle_config, some dihedral_config =>
      some
        (internal_coords.bond_lengths.map
          (fun t => tmap3 (discretize_to_bits length_config) (tsub t BACKBONE_BOND_LENGTHS)),
         internal_coords.bond_angles.map
          (fun t => tmap3 (discretize_to_bits angle_config) (tsub t BACKBONE_ANGLES)),
         internal_coords.dihedrals.map (tmap3 (discretize_to_bits dihedral_config)))
  | _, _, _ => none

/-- `NaiveCompressor.decompress`: look up the three specs in the config dict
(`none` if any is absent), decode each class and add the idealized constants
back to lengths and angles.  No shape check. -/
def NaiveCompressor.decompress (c : NaiveCompressor)
    (compressed_internal_coords : List (ℤ × ℤ × ℤ) × List (ℤ × ℤ × ℤ) × List (ℤ × ℤ × ℤ)) :
    Option InternalCoordinateSet :=
  match c.config.lengths, c.config.angles, c.config.dihedrals with
  | some length_config, some angle_config, some dihedral_config =>
      some
        ⟨compressed_internal_coords.1.map
           (fun t => tadd (tmap3 (decode_from_bits length_config) t) BACKBONE_BOND_LENGTHS),
         compressed_internal_coords.2.1.map
           (fun t => tadd (tmap3 (decode_from_bits angle_config) t) BACKBONE_ANGLES),
         compressed_internal_coords.2.2.map (tmap3 (decode_from_bits dihedral_config))⟩
  | _, _, _ => none

/-- The float64 value of `np.pi`, exactly. -/
def float64_pi : ℚ := 884279719003555 / 281474976710656

/-- `twelve_byte_angle_config = {"bits": 12, "signed": False, "max_val": np.pi}`
(`min_val` left at its default `0`). -/
def twelve_byte_angle_config : QuantizationSpec :=
  { bits := 12, max_val := float64_pi, signed := false }

/-- A row of three values all lying in the spec's `[min_val, max_val]`. -/
abbrev inRangeT (q : QuantizationSpec) (t : ℚ × ℚ × ℚ) : Prop :=
  (q.min_val ≤ t.1 ∧ t.1 ≤ q.max_val) ∧
    (q.min_val ≤ t.2.1 ∧ t.2.1 ≤ q.max_val) ∧
      (q.min_val ≤ t.2.2 ∧ t.2.2 ≤ q.max_val)

/-- Two rows agree componentwise within `e`. -/
abbrev tclose (e : ℚ) (a b : ℚ × ℚ × ℚ) : Prop :=
  |a.1 - b.1| ≤ e ∧ |a.2.1 - b.2.1| ≤ e ∧ |a.2.2 - b.2.2| ≤ e

/-- Floor of a half-integer tie `k + 1/2`. -/
theorem floor_tie (k : ℤ) : ⌊(k : ℚ) + 1 / 2⌋ = k := by
  rw [add_comm, Int.floor_add_int]
  norm_num

/-- Plain `round` sends the tie `k + 1/2` up to `k + 1`. -/
theorem round_tie (k : ℤ) : round ((k : ℚ) + 1 / 2) = k + 1 := by
  rw [round_eq]
  have h : (k : ℚ) + 1 / 2 + 1 / 2 = ((k + 1 : ℤ) : ℚ) := by push_cast; ring
  rw [h, Int.floor_intCast]

/-- `npRound` agrees with plain `round` away from ties. -/
theorem npRound_eq_round (x : ℚ) (h : x - ⌊x⌋ ≠ 1 / 2) : npRound x = round x :=
  if_neg h

/-- `np.round` at a tie `k + 1/2` picks the even element of `{k, k + 1}`. -/
theorem npRound_tie_eq (k : ℤ) :
    npRound ((k : ℚ) + 1 / 2) = if 2 ∣ k then k else k + 1 := by
  unfold npRound
  rw [floor_tie]
  rw [if_pos (by ring)]
  rcases Int.even_or_odd k with ⟨m, hm⟩ | ⟨m, hm⟩
  · have h2 : (2 : ℤ) ∣ k := ⟨m, by omega⟩
    rw [if_pos h2]
    have hx : ((k : ℚ) + 1 / 2) / 2 = (m : ℚ) + 1 / 4 := by
      have : (k : ℚ) = 2 * m := by exact_mod_cast congrArg (Int.cast : ℤ → ℚ) (by omega : k = 2 * m)
      rw [this]; ring
    rw [hx, round_eq]
    have h3 : (m : ℚ) + 1 / 4 + 1 / 2 = (m : ℚ) + 3 / 4 := by ring
    rw [h3, add_comm, Int.floor_add_int]
    norm_num
    omega
  · have h2 : ¬ (2 : ℤ) ∣ k := by omega
    rw [if_neg h2]
    have hx : ((k : ℚ) + 1 / 2) / 2 = (m : ℚ) + 3 / 4 := by
      have : (k : ℚ) = 2 * m + 1 := by exact_mod_cast congrArg (Int.cast : ℤ → ℚ) hm
      rw [this]; ring
    rw [hx, round_eq]
    have h3 : (m : ℚ) + 3 / 4 + 1 / 2 = (m : ℚ) + 5 / 4 := by ring
    rw [h3, add_comm, Int.floor_add_int]
    norm_num
    omega

/-- `npRound` of an integer is that integer. -/
theorem npRound_intCast (n : ℤ) : npRound (n : ℚ) = n := by
  unfold npRound
  rw [Int.floor_intCast, if_neg (by norm_num), round_intCast]

/-- `np.round` lands within half a unit of its argument. -/
theorem abs_npRound_sub_le (x : ℚ) : |(npRound x : ℚ) - x| ≤ 1 / 2 := by
  by_cases h : x - ⌊x⌋ = 1 / 2
  · have hx : x = (⌊x⌋ : ℚ) + 1 / 2 := by linarith
    rw [hx, npRound_tie_eq]
    split
    · rw [abs_le]
      constructor <;> linarith
    · rw [abs_le]
      have hcast : ((⌊x⌋ + 1 : ℤ) : ℚ) = (⌊x⌋ : ℚ) + 1 := by push_cast; ring
      rw [hcast]
      constructor <;> linarith
  · rw [npRound_eq_round x h, abs_sub_comm]
    exact abs_sub_round x

/-- `np.round` never exceeds plain round-half-up. -/
theorem npRound_le_round (x : ℚ) : npRound x ≤ round x := by
  by_cases h : x - ⌊x⌋ = 1 / 2
  · have hx : x = (⌊x⌋ : ℚ) + 1 / 2 := by linarith
    rw [hx, npRound_tie_eq, round_tie]
    split <;> omega
  · rw [npRound_eq_round x h]

/-- `np.round` is monotone. -/
theorem npRound_mono (x y : ℚ) (h : x ≤ y) : npRound x ≤ npRound y := by
  have hround : round x ≤ round y := by
    rw [round_eq, round_eq]
    exact Int.floor_le_floor (by linarith)
  by_cases hy : y - ⌊y⌋ = 1 / 2
  · have hy2 : y = (⌊y⌋ : ℚ) + 1 / 2 := by linarith
    have hylb : (⌊y⌋ : ℤ) ≤ npRound y := by
      have h1 : npRound y = npRound ((⌊y⌋ : ℚ) + 1 / 2) := by rw [← hy2]
      rw [h1, npRound_tie_eq]
      split <;> omega
    rcases eq_or_lt_of_le h with rfl | hlt
    · exact le_refl _
    · have hrx : round x ≤ ⌊y⌋ := by
        rw [round_eq]
        have hlt2 : x + 1 / 2 < ((⌊y⌋ + 1 : ℤ) : ℚ) := by push_cast; linarith
        have := Int.floor_lt.mpr hlt2
        omega
      have := npRound_le_round x
      omega
  · rw [npRound_eq_round y hy]
    exact le_trans (npRound_le_round x) hround

/-- Signed and unsigned code ranges have the same width `2^bits - 1`
(`(2^(bits-1) - 1) - (-(2^(bits-1))) = 2^bits - 1`, valid for every `bits`
with Python's exact `2 ** (bits - 1)` arithmetic). -/
theorem range_size (q : QuantizationSpec) :
    max_int_val q - min_int_val q = 2 ^ q.bits - 1 := by
  unfold max_int_val min_int_val
  rcases q.signed with _ | _
  · simp [zpow_natCast]
  · simp only [if_pos]
    have h1 : (2 : ℚ) ^ ((q.bits : ℤ) - 1) * 2 = 2 ^ (q.bits : ℤ) := by
      rw [← zpow_add_one₀ (by norm_num : (2 : ℚ) ≠ 0)]
      ring_nf
    have h2 : (2 : ℚ) ^ (q.bits : ℤ) = 2 ^ q.bits := zpow_natCast 2 q.bits
    linarith

/-- With at least one bit the code range width is positive. -/
theorem range_size_pos (q : QuantizationSpec) (hb : 1 ≤ q.bits) :
    (0 : ℚ) < 2 ^ q.bits - 1 := by
  have h : (2 : ℚ) ^ 1 ≤ 2 ^ q.bits := pow_le_pow_right₀ (by norm_num) hb
  norm_num at h
  linarith

/-- `decode_from_bits` inverts the affine scaling: the decoded value differs
from `v` by the rounding residual `n - scaled q v`, rescaled back. -/
theorem decode_sub_eq (q : QuantizationSpec) (hb : 1 ≤ q.bits)
    (hr : q.min_val < q.max_val) (n : ℤ) (v : ℚ) :
    decode_from_bits q n - v =
      ((n : ℚ) - scaled q v) * ((q.max_val - q.min_val) / (2 ^ q.bits - 1)) := by
  have hR : (2 : ℚ) ^ q.bits - 1 ≠ 0 := ne_of_gt (range_size_pos q hb)
  have hd : q.max_val - q.min_val ≠ 0 := by linarith
  unfold decode_from_bits scaled normalized
  rw [range_size]
  field_simp
  ring

/-- Round-trip error of a single value is at most half a quantization step,
with no assumption that `v` lies inside `[min_val, max_val]`. -/
theorem decode_discretize_abs_le (q : QuantizationSpec) (hb : 1 ≤ q.bits)
    (hr : q.min_val < q.max_val) (v : ℚ) :
    |decode_from_bits q (discretize_to_bits q v) - v| ≤
      (q.max_val - q.min_val) / (2 * (2 ^ q.bits - 1)) := by
  have hR : (0 : ℚ) < 2 ^ q.bits - 1 := range_size_pos q hb
  rw [decode_sub_eq q hb hr _ v, abs_mul]
  have h1 : |(discretize_to_bits q v : ℚ) - scaled q v| ≤ 1 / 2 :=
    abs_npRound_sub_le (scaled q v)
  have h2 : |(q.max_val - q.min_val) / (2 ^ q.bits - 1)| =
      (q.max_val - q.min_val) / (2 ^ q.bits - 1) :=
    abs_of_pos (div_pos (by linarith) hR)
  rw [h2]
  have h3 : |(discretize_to_bits q v : ℚ) - scaled q v| *
      ((q.max_val - q.min_val) / (2 ^ q.bits - 1)) ≤
      1 / 2 * ((q.max_val - q.min_val) / (2 ^ q.bits - 1)) := by
    exact mul_le_mul_of_nonneg_right h1 (le_of_lt (div_pos (by linarith) hR))
  calc |(discretize_to_bits q v : ℚ) - scaled q v| *
      ((q.max_val - q.min_val) / (2 ^ q.bits - 1)) ≤
      1 / 2 * ((q.max_val - q.min_val) / (2 ^ q.bits - 1)) := h3
    _ = (q.max_val - q.min_val) / (2 * (2 ^ q.bits - 1)) := by
        field_simp

/-- Re-scaling a decoded code lands exactly on that code: `scaled` after
`decode_from_bits` is the identity on integer codes. -/
theorem scaled_decode (q : QuantizationSpec) (hb : 1 ≤ q.bits)
    (hr : q.min_val < q.max_val) (n : ℤ) :
    scaled q (decode_from_bits q n) = n := by
  have hR : (2 : ℚ) ^ q.bits - 1 ≠ 0 := ne_of_gt (range_size_pos q hb)
  have hd : q.max_val - q.min_val ≠ 0 := by linarith
  unfold scaled normalized decode_from_bits
  rw [range_size]
  field_simp
  ring

/-- `min_val` scales exactly to the bottom of the code range. -/
theorem scaled_min (q : QuantizationSpec) (hr : q.min_val < q.max_val) :
    scaled q q.min_val = min_int_val q := by
  have hd : q.max_val - q.min_val ≠ 0 := by linarith
  unfold scaled normalized
  field_simp

/-- `max_val` scales exactly to the top of the code range. -/
theorem scaled_max (q : QuantizationSpec) (hr : q.min_val < q.max_val) :
    scaled q q.max_val = max_int_val q := by
  have hd : q.max_val - q.min_val ≠ 0 := by linarith
  unfold scaled normalized
  field_simp

/-- The affine scaling is monotone in the value. -/
theorem scaled_mono (q : QuantizationSpec) (hb : 1 ≤ q.bits)
    (hr : q.min_val < q.max_val) (v1 v2 : ℚ) (h : v1 ≤ v2) :
    scaled q v1 ≤ scaled q v2 := by
  have hR : (0 : ℚ) < 2 ^ q.bits - 1 := range_size_pos q hb
  have hd : (0 : ℚ) < q.max_val - q.min_val := by linarith
  unfold scaled normalized
  rw [range_size]
  have hcoef : (0 : ℚ) ≤ (2 ^ q.bits - 1) / (q.max_val - q.min_val) :=
    le_of_lt (div_pos hR hd)
  have key : (v2 - v1) * ((2 ^ q.bits - 1) / (q.max_val - q.min_val)) ≥ 0 :=
    mul_nonneg (by linarith) hcoef
  have expand : (v2 - q.min_val) / (q.max_val - q.min_val) * (2 ^ q.bits - 1) -
      (v1 - q.min_val) / (q.max_val - q.min_val) * (2 ^ q.bits - 1) =
      (v2 - v1) * ((2 ^ q.bits - 1) / (q.max_val - q.min_val)) := by
    field_simp
    ring
  linarith [expand ▸ key]

/-- With at least one bit, the bottom of the code range is the integer
`0` (unsigned) or `-2^(bits-1)` (signed). -/
theorem min_int_val_intCast (q : QuantizationSpec) (hb : 1 ≤ q.bits) :
    min_int_val q = ((if q.signed then -(2 ^ (q.bits - 1)) else 0 : ℤ) : ℚ) := by
  unfold min_int_val
  rcases q.signed with _ | _
  · simp
  · simp only [if_pos]
    have he : (q.bits : ℤ) - 1 = ((q.bits - 1 : ℕ) : ℤ) := by omega
    rw [he, zpow_natCast]
    push_cast
    ring

/-- With at least one bit, the top of the code range is the integer
`2^bits - 1` (unsigned) or `2^(bits-1) - 1` (signed). -/
theorem max_int_val_intCast (q : QuantizationSpec) (hb : 1 ≤ q.bits) :
    max_int_val q = ((if q.signed then 2 ^ (q.bits - 1) - 1 else 2 ^ q.bits - 1 : ℤ) : ℚ) := by
  unfold max_int_val
  rcases q.signed with _ | _
  · simp [zpow_natCast]
  · simp only [if_pos]
    have he : (q.bits : ℤ) - 1 = ((q.bits - 1 : ℕ) : ℤ) := by omega
    rw [he, zpow_natCast]
    push_cast
    ring

/-- Round trip of a deviation from a fixed offset: adding the offset back
keeps the decoded value within half a step of the original value. -/
theorem roundtrip_shift (q : QuantizationSpec) (hb : 1 ≤ q.bits)
    (hr : q.min_val < q.max_val) (v c : ℚ) :
    |decode_from_bits q (discretize_to_bits q (v - c)) + c - v| ≤ halfStep q := by
  have h : decode_from_bits q (discretize_to_bits q (v - c)) + c - v =
      decode_from_bits q (discretize_to_bits q (v - c)) - (v - c) := by ring
  rw [h]
  exact decode_discretize_abs_le q hb hr (v - c)

/-- Mapping a function over a list relates the image to the original
elementwise. -/
theorem list_forall₂_map_self {α β : Type} (P : β → α → Prop) (h : α → β) :
    ∀ l : List α, (∀ a ∈ l, P (h a) a) → List.Forall₂ P (l.map h) l
  | [], _ => List.Forall₂.nil
  | a :: l, hp =>
      List.Forall₂.cons (hp a (by simp))
        (list_forall₂_map_self P h l fun b hb => hp b (by simp [hb]))

/-- Claim C1: for every quantization configuration with `bits ≥ 1` and
`max_val > min_val` (signed or unsigned), and every `v` with
`min_val ≤ v ≤ max_val`, the round trip
`decode_from_bits (discretize_to_bits v)` differs from `v` by at most half a
quantization step: `|decoded - v| ≤ (max_val - min_val) / (2 * (2^bits - 1))`. -/
theorem c1_roundtrip_halfstep (q : QuantizationSpec) (v : ℚ) (hb : 1 ≤ q.bits)
    (hr : q.min_val < q.max_val) (_hv1 : q.min_val ≤ v) (_hv2 : v ≤ q.max_val) :
    |decode_from_bits q (discretize_to_bits q v) - v| ≤
      (q.max_val - q.min_val) / (2 * (2 ^ q.bits - 1)) :=
  decode_discretize_abs_le q hb hr v

/-- Witness for C1 at `bits = 4`, unsigned, range `[0, 16]`, `v = 5`. -/
theorem c1_roundtrip_halfstep_witness :
    (1 : ℕ) ≤ 4 ∧ (0 : ℚ) < 16 ∧ (0 : ℚ) ≤ 5 ∧ (5 : ℚ) ≤ 16 ∧
      |decode_from_bits { bits := 4, max_val := 16 }
          (discretize_to_bits { bits := 4, max_val := 16 } 5) - 5| ≤
        (16 - 0) / (2 * (2 ^ 4 - 1)) :=
  ⟨by norm_num, by norm_num, by norm_num, by norm_num,
    c1_roundtrip_halfstep { bits := 4, max_val := 16 } 5 (by norm_num) (by norm_num)
      (by norm_num) (by norm_num)⟩

/-- Claim C7: one extra round trip is idempotent — re-discretizing the decoded
value reproduces the same integer code, for every valid configuration and
every `v` in `[min_val, max_val]`. -/
theorem c7_idempotent (q : QuantizationSpec) (v : ℚ) (hb : 1 ≤ q.bits)
    (hr : q.min_val < q.max_val) (_hv1 : q.min_val ≤ v) (_hv2 : v ≤ q.max_val) :
    discretize_to_bits q (decode_from_bits q (discretize_to_bits q v)) =
      discretize_to_bits q v := by
  unfold discretize_to_bits
  rw [scaled_decode q hb hr, npRound_intCast]

/-- Witness for C7 at `bits = 4`, unsigned, range `[0, 16]`, `v = 5`. -/
theorem c7_idempotent_witness :
    (1 : ℕ) ≤ 4 ∧ (0 : ℚ) < 16 ∧ (0 : ℚ) ≤ 5 ∧ (5 : ℚ) ≤ 16 ∧
      discretize_to_bits { bits := 4, max_val := 16 }
          (decode_from_bits { bits := 4, max_val := 16 }
            (discretize_to_bits { bits := 4, max_val := 16 } 5)) =
        discretize_to_bits { bits := 4, max_val := 16 } 5 :=
  ⟨by norm_num, by norm_num, by norm_num, by norm_num,
    c7_idempotent { bits := 4, max_val := 16 } 5 (by norm_num) (by norm_num)
      (by norm_num) (by norm_num)⟩

/-- Claim C8: `discretize_to_bits` is monotone — for `v1 < v2` both inside
`[min_val, max_val]` of a valid configuration, the code of `v1` is at most the
code of `v2`. -/
theorem c8_monotone (q : QuantizationSpec) (v1 v2 : ℚ) (hb : 1 ≤ q.bits)
    (hr : q.min_val < q.max_val) (_h1 : q.min_val ≤ v1) (_h2 : v1 ≤ q.max_val)
    (_h3 : q.min_val ≤ v2) (_h4 : v2 ≤ q.max_val) (hlt : v1 < v2) :
    discretize_to_bits q v1 ≤ discretize_to_bits q v2 :=
  npRound_mono _ _ (scaled_mono q hb hr v1 v2 (le_of_lt hlt))

/-- Witness for C8 at `bits = 4`, unsigned, range `[0, 16]`, `v1 = 3 < v2 = 5`. -/
theorem c8_monotone_witness :
    (1 : ℕ) ≤ 4 ∧ (0 : ℚ) < 16 ∧ (0 : ℚ) ≤ 3 ∧ (3 : ℚ) ≤ 16 ∧ (0 : ℚ) ≤ 5 ∧
      (5 : ℚ) ≤ 16 ∧ (3 : ℚ) < 5 ∧
      discretize_to_bits { bits := 4, max_val := 16 } 3 ≤
        discretize_to_bits { bits := 4, max_val := 16 } 5 :=
  ⟨by norm_num, by norm_num, by norm_num, by norm_num, by norm_num, by norm_num,
    by norm_num,
    c8_monotone { bits := 4, max_val := 16 } 3 5 (by norm_num) (by norm_num)
      (by norm_num) (by norm_num) (by norm_num) (by norm_num) (by norm_num)⟩

/-- Claim C9: the endpoints of the value range map exactly to the endpoints of
the integer code range — `min_val` to `0` (unsigned) or `-2^(bits-1)` (signed),
`max_val` to `2^bits - 1` (unsigned) or `2^(bits-1) - 1` (signed). -/
theorem c9_boundary_exact (q : QuantizationSpec) (hb : 1 ≤ q.bits)
    (hr : q.min_val < q.max_val) :
    discretize_to_bits q q.min_val = (if q.signed then -(2 ^ (q.bits - 1)) else 0) ∧
      discretize_to_bits q q.max_val =
        (if q.signed then 2 ^ (q.bits - 1) - 1 else 2 ^ q.bits - 1) := by
  constructor
  · unfold discretize_to_bits
    rw [scaled_min q hr, min_int_val_intCast q hb, npRound_intCast]
  · unfold discretize_to_bits
    rw [scaled_max q hr, max_int_val_intCast q hb, npRound_intCast]

/-- Witness for C9 at `bits = 4`, unsigned, range `[0, 16]`. -/
theorem c9_boundary_exact_witness :
    (1 : ℕ) ≤ 4 ∧ (0 : ℚ) < 16 ∧
      discretize_to_bits { bits := 4, max_val := 16 } 0 = 0 ∧
      discretize_to_bits { bits := 4, max_val := 16 } 16 = 15 := by
  have h := c9_boundary_exact { bits := 4, max_val := 16 } (by norm_num) (by norm_num)
  simp only [Bool.false_eq_true, if_false] at h
  exact ⟨by norm_num, by norm_num, h.1, by norm_num [h.2]⟩

/-- Counterexample to C3: with `bits = 1`, unsigned, range `[0, 1]`, the value
`1/2` scales to exactly `0 + 1/2` — halfway between codes `0` and `1` — and
`np.round` produces `0`, the even neighbour, not the tie-away-from-zero
result `1` the claim requires. -/
theorem c3_counterexample :
    scaled { bits := 1, max_val := 1 } (1 / 2) = ((0 : ℤ) : ℚ) + 1 / 2 ∧
      discretize_to_bits { bits := 1, max_val := 1 } (1 / 2) = 0 ∧
      discretize_to_bits { bits := 1, max_val := 1 } (1 / 2) ≠ 1 := by
  refine ⟨?_, ?_, ?_⟩ <;>
    norm_num [scaled, normalized, max_int_val, min_int_val, discretize_to_bits,
      npRound, round_eq]

/-- Amended C3: after the affine scaling, `discretize_to_bits` rounds to the
nearest integer with ties to the nearest even integer (numpy's
round-half-to-even): a scaled value exactly halfway between consecutive codes
`k` and `k + 1` maps to whichever of the two is even. -/
theorem c3_ties_round_to_even (q : QuantizationSpec) (v : ℚ) (k : ℤ)
    (h : scaled q v = (k : ℚ) + 1 / 2) :
    2 ∣ discretize_to_bits q v ∧
      (discretize_to_bits q v = k ∨ discretize_to_bits q v = k + 1) := by
  unfold discretize_to_bits
  rw [h, npRound_tie_eq]
  by_cases h2 : (2 : ℤ) ∣ k
  · rw [if_pos h2]
    exact ⟨h2, Or.inl rfl⟩
  · rw [if_neg h2]
    exact ⟨by omega, Or.inr rfl⟩

/-- Witness for amended C3 at the tie `scaled = 0 + 1/2` of the 1-bit unsigned
configuration over `[0, 1]`. -/
theorem c3_ties_round_to_even_witness :
    scaled { bits := 1, max_val := 1 } (1 / 2) = ((0 : ℤ) : ℚ) + 1 / 2 ∧
      (2 ∣ discretize_to_bits { bits := 1, max_val := 1 } (1 / 2) ∧
        (discretize_to_bits { bits := 1, max_val := 1 } (1 / 2) = 0 ∨
          discretize_to_bits { bits := 1, max_val := 1 } (1 / 2) = 0 + 1)) :=
  ⟨by norm_num [scaled, normalized, max_int_val, min_int_val],
    c3_ties_round_to_even { bits := 1, max_val := 1 } (1 / 2) 0
      (by norm_num [scaled, normalized, max_int_val, min_int_val])⟩

/-- Claim C10: `discretize_to_bits` applies the same affine-scale-then-round
formula to every value with no out-of-range guard — the half-step round-trip
bound holds for all `v`, in range or not (exact arithmetic, no int32
overflow), and under the unsigned `twelve_byte_angle_config` the value `-1`
(below `min_val = 0`) produces a negative code, outside the declared
`[0, 2^12 - 1]` code range. -/
theorem c10_no_out_of_range_guard :
    (∀ (q : QuantizationSpec) (v : ℚ), 1 ≤ q.bits → q.min_val < q.max_val →
        |decode_from_bits q (discretize_to_bits q v) - v| ≤
          (q.max_val - q.min_val) / (2 * (2 ^ q.bits - 1))) ∧
      discretize_to_bits twelve_byte_angle_config (-1) < 0 := by
  constructor
  · intro q v hb hr
    exact decode_discretize_abs_le q hb hr v
  · norm_num [discretize_to_bits, scaled, normalized, max_int_val, min_int_val,
      npRound, round_eq, twelve_byte_angle_config, float64_pi]

/-- Witness for C10: the half-step bound applied at the out-of-range value
`v = -1` of the unsigned `twelve_byte_angle_config`. -/
theorem c10_no_out_of_range_guard_witness :
    (1 : ℕ) ≤ twelve_byte_angle_config.bits ∧
      twelve_byte_angle_config.min_val < twelve_byte_angle_config.max_val ∧
      |decode_from_bits twelve_byte_angle_config
          (discretize_to_bits twelve_byte_angle_config (-1)) - (-1)| ≤
        (twelve_byte_angle_config.max_val - twelve_byte_angle_config.min_val) /
          (2 * (2 ^ twelve_byte_angle_config.bits - 1)) :=
  ⟨by norm_num [twelve_byte_angle_config],
    by norm_num [twelve_byte_angle_config, float64_pi],
    c10_no_out_of_range_guard.1 twelve_byte_angle_config (-1)
      (by norm_num [twelve_byte_angle_config])
      (by norm_num [twelve_byte_angle_config, float64_pi])⟩

/-- Counterexample to C4: a configuration with `bits = 0` is never rejected —
`discretize_to_bits` still computes a code (`0`) for it at use time, and the
divisor `max_int_val - min_int_val` used by `decode_from_bits` is `0`, so the
decode division is a division by zero (numpy silently yields a non-finite
value); no `InvalidSpec` error exists anywhere in the code. -/
theorem c4_counterexample :
    discretize_to_bits { bits := 0, max_val := 1 } (1 / 2) = 0 ∧
      max_int_val { bits := 0, max_val := 1 } -
        min_int_val { bits := 0, max_val := 1 } = 0 := by
  constructor <;>
    norm_num [discretize_to_bits, scaled, normalized, max_int_val, min_int_val,
      npRound, round_eq]

/-- Amended C4: no validation happens at construction or at use time — a
configuration with `bits = 0` (and a non-degenerate value range) is accepted,
`discretize_to_bits` silently maps every value to the code `0`, and the code
range width `max_int_val - min_int_val`, the divisor of `decode_from_bits`,
is `0`, so decoding divides by zero at use time instead of raising
`InvalidSpec` at construction. -/
theorem c4_no_validation (q : QuantizationSpec) (v : ℚ) (hb : q.bits = 0)
    (_hr : q.min_val < q.max_val) :
    max_int_val q - min_int_val q = 0 ∧ discretize_to_bits q v = 0 := by
  have hsize : max_int_val q - min_int_val q = 0 := by
    rw [range_size, hb]
    norm_num
  refine ⟨hsize, ?_⟩
  unfold discretize_to_bits scaled
  rw [hsize, mul_zero, zero_add]
  unfold min_int_val
  rcases hs : q.signed with _ | _
  · rw [if_neg (by simp [hs])]
    have h0 := npRound_intCast 0
    simpa using h0
  · rw [if_pos (by simp [hs]), hb]
    have he : (-(2 ^ (((0 : ℕ) : ℤ) - 1)) : ℚ) = ((-1 : ℤ) : ℚ) + 1 / 2 := by
      norm_num
    rw [he, npRound_tie_eq]
    norm_num

/-- Witness for amended C4 at the signed zero-bit configuration over `[0, 1]`
and `v = 7`. -/
theorem c4_no_validation_witness :
    QuantizationSpec.bits { bits := 0, max_val := 1, signed := true } = 0 ∧
      (0 : ℚ) < 1 ∧
      max_int_val { bits := 0, max_val := 1, signed := true } -
          min_int_val { bits := 0, max_val := 1, signed := true } = 0 ∧
      discretize_to_bits { bits := 0, max_val := 1, signed := true } 7 = 0 :=
  ⟨rfl, by norm_num,
    c4_no_validation { bits := 0, max_val := 1, signed := true } 7 rfl (by norm_num)⟩

/-- A small well-formed coordinate set (one residue in every class). -/
def sample_coords : InternalCoordinateSet :=
  ⟨[(3 / 2, 3 / 2, 3 / 2)], [(1, 1, 1)], [(0, 0, 0)]⟩

/-- Counterexample to C5: constructing a `NaiveCompressor` from the empty
config mapping (all three keys missing) succeeds — the compressor object
exists and stores the config — and the missing-key failure only appears
later, when `compress` is called. -/
theorem c5_counterexample :
    (NaiveCompressor.init {}).config = ({} : CompressorConfig) ∧
      NaiveCompressor.compress (NaiveCompressor.init {}) sample_coords = none :=
  ⟨rfl, rfl⟩

/-- Amended C5: constructing a `NaiveCompressor` from a config mapping lacking
any of the keys `"lengths"`, `"angles"`, `"dihedrals"` succeeds (the config is
stored unexamined); the missing-key error (`KeyError`) surfaces only at the
first `compress`/`decompress` call. -/
theorem c5_missing_key_fails_at_use (cfg : CompressorConfig) (x : InternalCoordinateSet)
    (h : cfg.lengths = none ∨ cfg.angles = none ∨ cfg.dihedrals = none) :
    (NaiveCompressor.init cfg).config = cfg ∧
      NaiveCompressor.compress (NaiveCompressor.init cfg) x = none := by
  refine ⟨rfl, ?_⟩
  obtain ⟨l, a, d⟩ := cfg
  rcases l with _ | lq <;> rcases a with _ | aq <;> rcases d with _ | dq <;>
    simp_all [NaiveCompressor.compress, NaiveCompressor.init]

/-- The `twelve_byte_length_config` dict with the float literals read as exact
decimals: `{"bits": 6, "signed": True, "min_val": -0.05, "max_val": 0.4}`. -/
def sample_length_spec : QuantizationSpec :=
  { bits := 6, max_val := 4 / 10, min_val := -5 / 100, signed := true }

/-- A 12-bit unsigned spec over `[0, 3]` for angle deviations. -/
def sample_angle_spec : QuantizationSpec :=
  { bits := 12, max_val := 3 }

/-- A 14-bit unsigned spec over `[-3, 3]` for dihedrals. -/
def sample_dihedral_spec : QuantizationSpec :=
  { bits := 14, max_val := 3, min_val := -3 }

/-- A config dict carrying all three required keys. -/
def sample_config : CompressorConfig :=
  { lengths := some sample_length_spec, angles := some sample_angle_spec,
    dihedrals := some sample_dihedral_spec }

/-- A coordinate set with mismatched residue counts: one bond-length row, no
bond-angle rows, two dihedral rows. -/
def mismatched_coords : InternalCoordinateSet :=
  ⟨[(3 / 2, 3 / 2, 3 / 2)], [], [(0, 0, 0), (1, 1, 1)]⟩

/-- With every key present, `compress` reduces to the three independent
quantization maps, whatever the shapes of the input arrays. -/
theorem compress_eq (cfg : CompressorConfig) (lq aq dq : QuantizationSpec)
    (hl : cfg.lengths = some lq) (ha : cfg.angles = some aq)
    (hd : cfg.dihedrals = some dq) (x : InternalCoordinateSet) :
    NaiveCompressor.compress (NaiveCompressor.init cfg) x =
      some
        (x.bond_lengths.map
          (fun t => tmap3 (discretize_to_bits lq) (tsub t BACKBONE_BOND_LENGTHS)),
         x.bond_angles.map
          (fun t => tmap3 (discretize_to_bits aq) (tsub t BACKBONE_ANGLES)),
         x.dihedrals.map (tmap3 (discretize_to_bits dq))) := by
  simp only [NaiveCompressor.compress, NaiveCompressor.init, hl, ha, hd]

/-- With every key present, `decompress` reduces to the three independent
decode maps, whatever the shapes of the compressed arrays. -/
theorem decompress_eq (cfg : CompressorConfig) (lq aq dq : QuantizationSpec)
    (hl : cfg.lengths = some lq) (ha : cfg.angles = some aq)
    (hd : cfg.dihedrals = some dq)
    (comp : List (ℤ × ℤ × ℤ) × List (ℤ × ℤ × ℤ) × List (ℤ × ℤ × ℤ)) :
    NaiveCompressor.decompress (NaiveCompressor.init cfg) comp =
      some
        ⟨comp.1.map (fun t => tadd (tmap3 (decode_from_bits lq) t) BACKBONE_BOND_LENGTHS),
         comp.2.1.map (fun t => tadd (tmap3 (decode_from_bits aq) t) BACKBONE_ANGLES),
         comp.2.2.map (tmap3 (decode_from_bits dq))⟩ := by
  simp only [NaiveCompressor.decompress, NaiveCompressor.init, hl, ha, hd]

/-- Counterexample to C6: calling `compress` (and then `decompress`) on input
whose three coordinate arrays have mismatched residue counts (1 / 0 / 2 rows)
produces a result; no shape error is raised. -/
theorem c6_counterexample :
    ∃ y z,
      NaiveCompressor.compress (NaiveCompressor.init sample_config) mismatched_coords =
          some y ∧
        NaiveCompressor.decompress (NaiveCompressor.init sample_config) y = some z :=
  ⟨_, _,
    compress_eq sample_config sample_length_spec sample_angle_spec sample_dihedral_spec
      rfl rfl rfl mismatched_coords,
    decompress_eq sample_config sample_length_spec sample_angle_spec sample_dihedral_spec
      rfl rfl rfl _⟩

/-- Amended C6: `compress` and `decompress` perform no shape validation at all
— whenever the three config keys are present they return a result for every
input, mismatched residue counts included, each coordinate class being
processed independently. -/
theorem c6_no_shape_check (cfg : CompressorConfig) (lq aq dq : QuantizationSpec)
    (hl : cfg.lengths = some lq) (ha : cfg.angles = some aq)
    (hd : cfg.dihedrals = some dq) (x : InternalCoordinateSet)
    (comp : List (ℤ × ℤ × ℤ) × List (ℤ × ℤ × ℤ) × List (ℤ × ℤ × ℤ)) :
    (NaiveCompressor.compress (NaiveCompressor.init cfg) x).isSome = true ∧
      (NaiveCompressor.decompress (NaiveCompressor.init cfg) comp).isSome = true := by
  rw [compress_eq cfg lq aq dq hl ha hd x, decompress_eq cfg lq aq dq hl ha hd comp]
  exact ⟨rfl, rfl⟩

/-- Witness for amended C6 at the fully populated `sample_config`, the
mismatched coordinate set, and a mismatched compressed tuple. -/
theorem c6_no_shape_check_witness :
    CompressorConfig.lengths sample_config = some sample_length_spec ∧
      CompressorConfig.angles sample_config = some sample_angle_spec ∧
      CompressorConfig.dihedrals sample_config = some sample_dihedral_spec ∧
      (NaiveCompressor.compress (NaiveCompressor.init sample_config)
          mismatched_coords).isSome = true ∧
      (NaiveCompressor.decompress (NaiveCompressor.init sample_config)
          ([(0, 0, 0)], [], [(1, 2, 3), (4, 5, 6)])).isSome = true := by
  have h := c6_no_shape_check sample_config sample_length_spec sample_angle_spec
    sample_dihedral_spec rfl rfl rfl mismatched_coords ([(0, 0, 0)], [], [(1, 2, 3), (4, 5, 6)])
  exact ⟨rfl, rfl, rfl, h.1, h.2⟩

/-- Witness for amended C5: a config holding only the `"angles"` key is
accepted at construction and fails at `compress`. -/
theorem c5_missing_key_fails_at_use_witness :
    (CompressorConfig.lengths { angles := some sample_angle_spec } = none ∨
        CompressorConfig.angles { angles := some sample_angle_spec } = none ∨
        CompressorConfig.dihedrals { angles := some sample_angle_spec } = none) ∧
      (NaiveCompressor.init { angles := some sample_angle_spec }).config =
          ({ angles := some sample_angle_spec } : CompressorConfig) ∧
      NaiveCompressor.compress
          (NaiveCompressor.init { angles := some sample_angle_spec }) sample_coords =
        none :=
  ⟨Or.inl rfl,
    (c5_missing_key_fails_at_use { angles := some sample_angle_spec } sample_coords
        (Or.inl rfl)).1,
    (c5_missing_key_fails_at_use { angles := some sample_angle_spec } sample_coords
        (Or.inl rfl)).2⟩

/-- Quantize-then-decode of a deviation from an offset row, with the offset
added back, stays within half a step of the original row, componentwise. -/
theorem tclose_roundtrip_shift (q : QuantizationSpec) (hb : 1 ≤ q.bits)
    (hr : q.min_val < q.max_val) (t c : ℚ × ℚ × ℚ) :
    tclose (halfStep q)
      (tadd (tmap3 (decode_from_bits q) (tmap3 (discretize_to_bits q) (tsub t c))) c) t := by
  refine ⟨?_, ?_, ?_⟩ <;> simp only [tmap3, tsub, tadd] <;>
    exact roundtrip_shift q hb hr _ _

/-- Quantize-then-decode of a raw row stays within half a step of the original
row, componentwise. -/
theorem tclose_roundtrip (q : QuantizationSpec) (hb : 1 ≤ q.bits)
    (hr : q.min_val < q.max_val) (t : ℚ × ℚ × ℚ) :
    tclose (halfStep q) (tmap3 (decode_from_bits q) (tmap3 (discretize_to_bits q) t)) t := by
  refine ⟨?_, ?_, ?_⟩ <;> simp only [tmap3, halfStep] <;>
    exact decode_discretize_abs_le q hb hr _

/-- Claim C2: for a config carrying all three (valid) specs and an input whose
bond-length and bond-angle deviations from the canonical constants and whose
dihedrals lie in the respective spec ranges, `decompress (compress x)`
succeeds and equals `x` elementwise to within each class's half-step bound —
lengths and angles quantized as deviations from `BACKBONE_BOND_LENGTHS` /
`BACKBONE_ANGLES` (added back on decompress), dihedrals quantized directly. -/
theorem c2_compressor_roundtrip (cfg : CompressorConfig) (lq aq dq : QuantizationSpec)
    (hl : cfg.lengths = some lq) (ha : cfg.angles = some aq)
    (hd : cfg.dihedrals = some dq)
    (hlb : 1 ≤ lq.bits) (hlr : lq.min_val < lq.max_val)
    (hab : 1 ≤ aq.bits) (har : aq.min_val < aq.max_val)
    (hdb : 1 ≤ dq.bits) (hdr : dq.min_val < dq.max_val)
    (x : InternalCoordinateSet)
    (_hxl : ∀ t ∈ x.bond_lengths, inRangeT lq (tsub t BACKBONE_BOND_LENGTHS))
    (_hxa : ∀ t ∈ x.bond_angles, inRangeT aq (tsub t BACKBONE_ANGLES))
    (_hxd : ∀ t ∈ x.dihedrals, inRangeT dq t) :
    ∃ y z,
      NaiveCompressor.compress (NaiveCompressor.init cfg) x = some y ∧
        NaiveCompressor.decompress (NaiveCompressor.init cfg) y = some z ∧
        List.Forall₂ (tclose (halfStep lq)) z.bond_lengths x.bond_lengths ∧
        List.Forall₂ (tclose (halfStep aq)) z.bond_angles x.bond_angles ∧
        List.Forall₂ (tclose (halfStep dq)) z.dihedrals x.dihedrals := by
  refine ⟨_, _, compress_eq cfg lq aq dq hl ha hd x,
    decompress_eq cfg lq aq dq hl ha hd _, ?_, ?_, ?_⟩
  · simp only [List.map_map]
    refine list_forall₂_map_self _ _ _ fun t _ => ?_
    simp only [Function.comp]
    exact tclose_roundtrip_shift lq hlb hlr t BACKBONE_BOND_LENGTHS
  · simp only [List.map_map]
    refine list_forall₂_map_self _ _ _ fun t _ => ?_
    simp only [Function.comp]
    exact tclose_roundtrip_shift aq hab har t BACKBONE_ANGLES
  · simp only [List.map_map]
    refine list_forall₂_map_self _ _ _ fun t _ => ?_
    simp only [Function.comp]
    exact tclose_roundtrip dq hdb hdr t

/-- A one-residue coordinate set whose deviations and dihedrals lie inside the
ranges of `sample_config`. -/
def inrange_coords : InternalCoordinateSet :=
  ⟨[(3 / 2, 3 / 2, 3 / 2)], [(11 / 10, 1, 6 / 5)], [(1, 2, -1)]⟩

/-- Witness for C2 at `sample_config` and the in-range one-residue input. -/
theorem c2_compressor_roundtrip_witness :
    CompressorConfig.lengths sample_config = some sample_length_spec ∧
      (1 : ℕ) ≤ sample_length_spec.bits ∧
      sample_length_spec.min_val < sample_length_spec.max_val ∧
      (∀ t ∈ inrange_coords.bond_lengths,
        inRangeT sample_length_spec (tsub t BACKBONE_BOND_LENGTHS)) ∧
      (∀ t ∈ inrange_coords.bond_angles,
        inRangeT sample_angle_spec (tsub t BACKBONE_ANGLES)) ∧
      (∀ t ∈ inrange_coords.dihedrals, inRangeT sample_dihedral_spec t) ∧
      ∃ y z,
        NaiveCompressor.compress (NaiveCompressor.init sample_config) inrange_coords =
            some y ∧
          NaiveCompressor.decompress (NaiveCompressor.init sample_config) y = some z ∧
          List.Forall₂ (tclose (halfStep sample_length_spec)) z.bond_lengths
            inrange_coords.bond_lengths ∧
          List.Forall₂ (tclose (halfStep sample_angle_spec)) z.bond_angles
            inrange_coords.bond_angles ∧
          List.Forall₂ (tclose (halfStep sample_dihedral_spec)) z.dihedrals
            inrange_coords.dihedrals :=
  ⟨rfl, by norm_num [sample_length_spec],
    by norm_num [sample_length_spec],
    by norm_num [inrange_coords, inRangeT, tsub, BACKBONE_BOND_LENGTHS, sample_length_spec],
    by norm_num [inrange_coords, inRangeT, tsub, BACKBONE_ANGLES, sample_angle_spec],
    by norm_num [inrange_coords, inRangeT, sample_dihedral_spec],
    c2_compressor_roundtrip sample_config sample_length_spec sample_angle_spec
      sample_dihedral_spec rfl rfl rfl
      (by norm_num [sample_length_spec]) (by norm_num [sample_length_spec])
      (by norm_num [sample_angle_spec]) (by norm_num [sample_angle_spec])
      (by norm_num [sample_dihedral_spec]) (by norm_num [sample_dihedral_spec])
      inrange_coords
      (by norm_num [inrange_coords, inRangeT, tsub, BACKBONE_BOND_LENGTHS, sample_length_spec])
      (by norm_num [inrange_coords, inRangeT, tsub, BACKBONE_ANGLES, sample_angle_spec])
      (by norm_num [inrange_coords, inRangeT, sample_dihedral_spec])⟩
